import Mathlib

/-!
Verification of the HTML attribute parser (`html_classes_linter/parser.py`).

Strings are modelled as `List Char`.  The engine configuration
(`HtmlAttributeParser.__init__`), the attribute regex, the value codec
(`get_attribute_value` / `attribute_cleaner`), the rule methods
(`apply_default_split`, `apply_rule_H050`, `apply_rule_H051`) and the
orchestration (`process_source`, `batch_sources`) are each translated below.
-/

set_option maxHeartbeats 1000000

/-- The double-quote character, the attribute value delimiter from the source
pattern `name="..."`. -/
def quoteChar : Char := Char.ofNat 34

/-- ASCII whitespace recognised by Python `str.split()` and `str.isspace()`:
space, tab, newline, vertical tab, form feed, carriage return. -/
def isPySpace (c : Char) : Bool :=
  c == ' ' || c == '\t' || c == '\n' || c == '\x0b' || c == '\x0c' || c == '\r'

/-- Modelled from the spec: the `MalformedMatch` error.  In the source it is
`ParserError` imported from an exceptions module that is not among the given
source files; it simply carries a message. -/
structure ParserError where
  msg : List Char
deriving DecidableEq

/-- Message of the first defensive raise in `get_attribute_value`. -/
def emptyMatchMsg : List Char :=
  "There is a empty matched object".toList

/-- Message of the second defensive raise in `get_attribute_value`, which
embeds the matched text. -/
def malformedMsg (m : List Char) : List Char :=
  "Matched object does not starts or ends with expected syntax: ".toList ++ m

/-- Engine state after `HtmlAttributeParser.__init__`: the stored
configuration.  `django_compat` is stored but never read again in this class;
`attribute_name` drives the pattern. -/
structure HtmlAttributeParser where
  django_compat : Bool
  attribute_name : List Char
deriving DecidableEq

/-- The default attribute name `class`. -/
def defaultAttributeName : List Char := ['c', 'l', 'a', 's', 's']

/-- Constructor `HtmlAttributeParser.__init__`: `django_compat` defaults to
`DEFAULT_DJANGO_COMPAT = True`; `attribute_name` is
`kwargs.pop("attribute_name", None) or "class"`, so any falsy value
(absent keyword, `None`, or the empty string) is replaced by `class`. -/
def mkParser (kwDjangoCompat : Option Bool) (kwAttributeName : Option (List Char)) :
    HtmlAttributeParser where
  django_compat := kwDjangoCompat.getD true
  attribute_name :=
    match kwAttributeName with
    | none => defaultAttributeName
    | some n => if n = [] then defaultAttributeName else n

/-- Field `attribute_start`, set to `'{}="'.format(self.attribute_name)`. -/
def attribute_start (p : HtmlAttributeParser) : List Char :=
  p.attribute_name ++ ['=', quoteChar]

/-- Field `attribute_end`, set to the closing double quote. -/
def attribute_end (p : HtmlAttributeParser) : List Char := [quoteChar]

/-- A run of characters containing no double quote, as matched by the
`[^"]*` pieces of the attribute pattern. -/
def noQuote (l : List Char) : Prop := ∀ c ∈ l, c ≠ quoteChar

instance noQuote.decidable (l : List Char) : Decidable (noQuote l) := by
  unfold noQuote
  infer_instance

/-- Semantics of the negative lookahead `(?![^" ])` from the source pattern:
it fails exactly when the next character of the remaining input exists and is
neither a double quote nor a space. -/
def lookaheadNegNQS : List Char → Prop
  | [] => True
  | c :: _ => ¬(c ≠ quoteChar ∧ c ≠ ' ')

/-- Semantics of the compiled `attribute_pattern`
`r'{name}="(?:[^"]*)(?![^" ])[^"]*"'`: a matched text decomposes into the
literal `attribute_start` (`name="`), a first non-quote run, the lookahead
checkpoint, a second non-quote run, and the closing quote.  Inside a larger
subject string the lookahead inspects the character right after the first
run, which is always inside the match (the closing quote at the latest), so
the anchored formulation is exact. -/
def attribute_regex_match (astart t : List Char) : Prop :=
  ∃ a b, t = astart ++ a ++ b ++ [quoteChar] ∧ noQuote a ∧ noQuote b ∧
    lookaheadNegNQS (b ++ [quoteChar])

/-- Python `str.startswith`. -/
def startsWith (aPre t : List Char) : Bool :=
  decide (List.take aPre.length t = aPre)

/-- Python `str.endswith`. -/
def endsWith (aSuf t : List Char) : Bool :=
  decide (List.take aSuf.length t.reverse = aSuf.reverse)

/-- Method `get_attribute_value`: defensive envelope checks, then the slice
`matchobj.group(0)[len(self.attribute_start):-len(self.attribute_end)]`.
Python's `s[a:-b]` yields the characters from index `a` up to `len(s) - b`,
empty when that range is empty, which is exactly the truncated `Nat`
arithmetic below. -/
def get_attribute_value (p : HtmlAttributeParser) (m : List Char) :
    Except ParserError (List Char) :=
  if m = [] then
    Except.error ⟨emptyMatchMsg⟩
  else if !(startsWith (attribute_start p) m) || !(endsWith (attribute_end p) m) then
    Except.error ⟨malformedMsg m⟩
  else
    Except.ok (List.take (m.length - (attribute_start p).length - (attribute_end p).length)
      (List.drop (attribute_start p).length m))

/-- Method `attribute_cleaner`: rebuild `attribute_start + value + attribute_end`
from the matched text, propagating the codec's error. -/
def attribute_cleaner (p : HtmlAttributeParser) (m : List Char) :
    Except ParserError (List Char) :=
  match get_attribute_value p m with
  | Except.ok v => Except.ok (attribute_start p ++ v ++ attribute_end p)
  | Except.error e => Except.error e

/-- The triple returned by `process_source`. -/
structure SourceResult where
  filepath : List Char
  original : List Char
  transformed : List Char
deriving DecidableEq

/-- Method `apply_default_split` models Python `content.split(" ")` — split on the literal
space character, keeping all tokens including empty ones. -/
def splitOnSpaceChar : List Char → List (List Char)
  | [] => [[]]
  | c :: rest =>
    if c = ' ' then [] :: splitOnSpaceChar rest
    else
      match splitOnSpaceChar rest with
      | [] => [[c]]
      | t :: ts => (c :: t) :: ts

/-- Method `apply_default_split(content)` returns `content.split(" ")`. -/
def apply_default_split (content : List Char) : List (List Char) :=
  splitOnSpaceChar content

/-- Extend the current leading token with one more character (start a new
token when there is none yet). -/
def consHead (c : Char) : List (List Char) → List (List Char)
  | [] => [[c]]
  | t :: ts => (c :: t) :: ts

/-- Python `content.split()` with no separator: split on runs of whitespace,
discarding empty tokens. -/
def pySplitWs : List Char → List (List Char)
  | [] => []
  | [c] => if isPySpace c then [] else [[c]]
  | c :: d :: rest =>
    if isPySpace c then pySplitWs (d :: rest)
    else if isPySpace d then [c] :: pySplitWs (d :: rest)
    else consHead c (pySplitWs (d :: rest))

/-- Method `apply_rule_H050(content)` returns `content.split()`. -/
def apply_rule_H050 (content : List Char) : List (List Char) :=
  pySplitWs content

/-- Python `str.isspace()`: non-empty and made of whitespace only. -/
def isSpaceOnlyTok (l : List Char) : Bool :=
  !l.isEmpty && l.all isPySpace

/-- The accumulator loop of `apply_rule_H051`: `value` collects the kept
items; an item is appended when it is empty, whitespace-only, or not yet in
`value`. -/
def h051Aux (value : List (List Char)) : List (List Char) → List (List Char)
  | [] => value
  | item :: rest =>
    if item = [] ∨ isSpaceOnlyTok item = true ∨ item ∉ value then
      h051Aux (value ++ [item]) rest
    else
      h051Aux value rest

/-- Method `apply_rule_H051(items)`: run the accumulator loop from an empty `value`
list. -/
def apply_rule_H051 (items : List (List Char)) : List (List Char) :=
  h051Aux [] items

/-- Modelled from the spec: the dedupe rule restated in the spec's own words —
walking the sequence with the already-seen items at hand, keep an item when it
is empty, whitespace-only, or has no equal item before it.  Used as the
reference formulation that `apply_rule_H051` is proved equal to. -/
def dedupeSpecFrom (earlier : List (List Char)) : List (List Char) → List (List Char)
  | [] => []
  | item :: rest =>
    if item = [] ∨ isSpaceOnlyTok item = true ∨ item ∉ earlier then
      item :: dedupeSpecFrom (earlier ++ [item]) rest
    else
      dedupeSpecFrom (earlier ++ [item]) rest

/-- Modelled from the spec: keep the first occurrence of each distinct
non-empty, non-whitespace-only token; empty and whitespace-only tokens always
pass through; order is preserved. -/
def dedupeSpec (items : List (List Char)) : List (List Char) :=
  dedupeSpecFrom [] items

/-- Modelled from the spec: the rule pipeline's re-join step, joining tokens
back with the literal single-space separator (`" ".join(...)` in the
surrounding engine, which is not part of the given source files). -/
def joinSpace : List (List Char) → List Char
  | [] => []
  | [t] => t
  | t :: ts => t ++ ' ' :: joinSpace ts

/-- Occurrences of a token in a token list. -/
def countTok (x : List Char) : List (List Char) → Nat
  | [] => 0
  | y :: rest => (if y = x then 1 else 0) + countTok x rest

/-- Scan to the first double quote: `findClose l = some (v, r)` when
`l = v ++ quoteChar :: r` with `v` quote-free; `none` when `l` has no
quote. -/
def findClose : List Char → Option (List Char × List Char)
  | [] => none
  | c :: rest =>
    if c = quoteChar then some ([], rest)
    else
      match findClose rest with
      | some (v, r) => some (c :: v, r)
      | none => none

/-- Attempt of the attribute regex at the current position: the literal
`attribute_start`, then everything up to the first following double quote.
Returns the matched value and the text after the match. -/
def matchHere (astart t : List Char) : Option (List Char × List Char) :=
  if List.take astart.length t = astart then findClose (List.drop astart.length t)
  else none

/-- Model of `re.sub` with a fallible replacement callback: scan left to right; at each
position try the pattern; on a match emit the callback's output and resume
after the match, otherwise keep the character and move one position right.
This is the standard leftmost, non-overlapping `re.sub` scan for the attribute
pattern (whose matches are never empty). -/
def reSub (f : List Char → Except ParserError (List Char)) (astart : List Char) :
    List Char → Except ParserError (List Char)
  | [] => Except.ok []
  | c :: rest =>
    match h : matchHere astart (c :: rest) with
    | some (v, r) =>
      match f (astart ++ v ++ [quoteChar]) with
      | Except.ok rep =>
        match reSub f astart r with
        | Except.ok tail => Except.ok (rep ++ tail)
        | Except.error e => Except.error e
      | Except.error e => Except.error e
    | none =>
      match reSub f astart rest with
      | Except.ok tail => Except.ok (c :: tail)
      | Except.error e => Except.error e
termination_by t => t.length
decreasing_by
  · have key : ∀ (l : List Char) (v r : List Char),
        findClose l = some (v, r) → r.length < l.length := by
      intro l
      induction l with
      | nil => intro v r hh; simp [findClose] at hh
      | cons d ds ih =>
        intro v r hh
        rw [findClose] at hh
        by_cases hd : d = quoteChar
        · rw [if_pos hd] at hh
          cases hh
          simp
        · rw [if_neg hd] at hh
          cases hfc : findClose ds with
          | none => rw [hfc] at hh; cases hh
          | some p =>
            rw [hfc] at hh
            cases p with
            | mk v0 r0 =>
              cases hh
              have := ih v0 r hfc
              simp
              omega
    have key2 : ∀ (a t v r : List Char),
        matchHere a t = some (v, r) → r.length < t.length := by
      intro a t v r hmh
      rw [matchHere] at hmh
      by_cases hp : List.take a.length t = a
      · rw [if_pos hp] at hmh
        have h1 := key _ _ _ hmh
        have h2 : (List.drop a.length t).length ≤ t.length := by
          rw [List.length_drop]
          omega
        omega
      · rw [if_neg hp] at hmh
        cases hmh
    exact key2 _ _ _ _ h
  · simp

/-- Whether the attribute pattern matches anywhere in the text: the scan of
`re.sub` triggers at least once. -/
def hasAttrMatch (astart : List Char) : List Char → Bool
  | [] => false
  | c :: rest => (matchHere astart (c :: rest)).isSome || hasAttrMatch astart rest

/-- Method `process_source`: substitute every attribute match through
`attribute_cleaner` and return the `(filepath, original, transformed)`
triple.  The logging call is an external observer and is not modelled. -/
def process_source (p : HtmlAttributeParser) (filepath content : List Char) :
    Except ParserError SourceResult :=
  match reSub (attribute_cleaner p) (attribute_start p) content with
  | Except.ok transformed => Except.ok ⟨filepath, content, transformed⟩
  | Except.error e => Except.error e

/-- Method `batch_sources`: the list comprehension
`[self.process_source(k, v) for k, v in sources.items()]` — the mapping is
modelled as its insertion-ordered list of `(identifier, content)` pairs; items
are processed left to right and an exception aborts the whole batch. -/
def batch_sources (p : HtmlAttributeParser) :
    List (List Char × List Char) → Except ParserError (List SourceResult)
  | [] => Except.ok []
  | kv :: rest =>
    match process_source p kv.1 kv.2 with
    | Except.ok r =>
      match batch_sources p rest with
      | Except.ok rs => Except.ok (r :: rs)
      | Except.error e => Except.error e
    | Except.error e => Except.error e

/-- Reassemble a source text from an alternation of untouched gaps and
matched spans: each segment is `(gap, matchedText, replacementText)` and the
original text is gap ++ matchedText, segment by segment, ending with a final
untouched tail. -/
def origOfSegs : List (List Char × List Char × List Char) → List Char → List Char
  | [], tail => tail
  | s :: rest, tail => s.1 ++ s.2.1 ++ origOfSegs rest tail

/-- Reassemble the transformed text from the same segments: gaps and the
final tail are kept byte for byte, matched spans are replaced by their
replacement text. -/
def outOfSegs : List (List Char × List Char × List Char) → List Char → List Char
  | [], tail => tail
  | s :: rest, tail => s.1 ++ s.2.2 ++ outOfSegs rest tail

theorem reSub_nil (f : List Char → Except ParserError (List Char)) (astart : List Char) :
    reSub f astart [] = Except.ok [] := by
  rw [reSub]

theorem reSub_cons (f : List Char → Except ParserError (List Char)) (astart : List Char)
    (c : Char) (rest : List Char) :
    reSub f astart (c :: rest) =
      match matchHere astart (c :: rest) with
      | some (v, r) =>
        (match f (astart ++ v ++ [quoteChar]) with
         | Except.ok rep =>
           (match reSub f astart r with
            | Except.ok tail => Except.ok (rep ++ tail)
            | Except.error e => Except.error e)
         | Except.error e => Except.error e)
      | none =>
        (match reSub f astart rest with
         | Except.ok tail => Except.ok (c :: tail)
         | Except.error e => Except.error e) := by
  rw [reSub]
  cases hm : matchHere astart (c :: rest) with
  | some pr => cases pr with | mk v r => simp [hm]
  | none => simp [hm]

theorem findClose_some : ∀ (l v r : List Char),
    findClose l = some (v, r) → l = v ++ quoteChar :: r ∧ noQuote v := by
  intro l
  induction l with
  | nil => intro v r h; simp [findClose] at h
  | cons d ds ih =>
    intro v r h
    rw [findClose] at h
    by_cases hd : d = quoteChar
    · rw [if_pos hd] at h
      cases h
      subst hd
      exact ⟨rfl, by intro c hc; cases hc⟩
    · rw [if_neg hd] at h
      cases hfc : findClose ds with
      | none => rw [hfc] at h; cases h
      | some pr =>
        rw [hfc] at h
        cases pr with
        | mk v0 r0 =>
          cases h
          obtain ⟨he, hq⟩ := ih v0 r hfc
          constructor
          · rw [he]; rfl
          · intro c hc
            cases hc with
            | head => exact hd
            | tail _ hm => exact hq c hm

theorem matchHere_some (astart t v r : List Char) (h : matchHere astart t = some (v, r)) :
    t = astart ++ v ++ quoteChar :: r ∧ noQuote v := by
  rw [matchHere] at h
  by_cases hp : List.take astart.length t = astart
  · rw [if_pos hp] at h
    obtain ⟨he, hq⟩ := findClose_some _ _ _ h
    refine ⟨?_, hq⟩
    have := List.take_append_drop astart.length t
    rw [hp, he] at this
    rw [← this]
    simp
  · rw [if_neg hp] at h
    cases h

theorem quote_split_unique : ∀ (v r w s : List Char), noQuote v → noQuote w →
    v ++ quoteChar :: r = w ++ quoteChar :: s → v = w ∧ r = s := by
  intro v
  induction v with
  | nil =>
    intro r w s _ hw h
    cases w with
    | nil => simpa using h
    | cons b bs =>
      simp at h
      exfalso
      exact hw b (by simp) h.1.symm
  | cons a al ih =>
    intro r w s hv hw h
    cases w with
    | nil =>
      simp at h
      exfalso
      exact hv a (by simp) h.1
    | cons b bs =>
      simp at h
      obtain ⟨hab, htl⟩ := h
      have hv' : noQuote al := fun c hc => hv c (List.mem_cons_of_mem _ hc)
      have hw' : noQuote bs := fun c hc => hw c (List.mem_cons_of_mem _ hc)
      obtain ⟨h1, h2⟩ := ih r bs s hv' hw' htl
      exact ⟨by rw [hab, h1], h2⟩

theorem attrMatch_iff (astart t : List Char) :
    attribute_regex_match astart t ↔ ∃ v, noQuote v ∧ t = astart ++ v ++ [quoteChar] := by
  constructor
  · rintro ⟨a, b, he, ha, hb, _⟩
    refine ⟨a ++ b, ?_, by rw [he]; simp⟩
    intro c hc
    rcases List.mem_append.mp hc with h | h
    · exact ha c h
    · exact hb c h
  · rintro ⟨v, hv, he⟩
    refine ⟨v, [], ?_, hv, ?_, ?_⟩
    · rw [he]; simp
    · intro c hc; cases hc
    · simp only [List.nil_append]
      intro hcontra
      exact hcontra.1 rfl

theorem get_attribute_value_wellformed (p : HtmlAttributeParser) (v : List Char) :
    get_attribute_value p (attribute_start p ++ v ++ [quoteChar]) = Except.ok v := by
  have hne : attribute_start p ++ v ++ [quoteChar] ≠ [] := by simp
  have hstart : startsWith (attribute_start p) (attribute_start p ++ v ++ [quoteChar]) = true := by
    rw [startsWith]
    apply decide_eq_true
    rw [List.append_assoc]
    exact List.take_left _ _
  have hend : endsWith (attribute_end p) (attribute_start p ++ v ++ [quoteChar]) = true := by
    rw [endsWith]
    apply decide_eq_true
    simp [attribute_end]
  rw [get_attribute_value, if_neg hne, hstart, hend]
  have h1 : List.drop (attribute_start p).length (attribute_start p ++ v ++ [quoteChar]) =
      v ++ [quoteChar] := by
    rw [List.append_assoc]
    exact List.drop_left _ _
  have h2 : (attribute_start p ++ v ++ [quoteChar]).length - (attribute_start p).length -
      (attribute_end p).length = v.length := by
    simp [attribute_end]
  rw [h1, h2]
  simp [List.take_left]

theorem attribute_cleaner_id (p : HtmlAttributeParser) (v : List Char) :
    attribute_cleaner p (attribute_start p ++ v ++ [quoteChar]) =
      Except.ok (attribute_start p ++ v ++ [quoteChar]) := by
  rw [attribute_cleaner, get_attribute_value_wellformed]
  rfl

theorem reSub_cleaner_id (p : HtmlAttributeParser) : ∀ (n : Nat) (t : List Char),
    t.length ≤ n →
    reSub (attribute_cleaner p) (attribute_start p) t = Except.ok t := by
  intro n
  induction n with
  | zero =>
    intro t ht
    have ht0 : t = [] := List.length_eq_zero.mp (Nat.le_zero.mp ht)
    subst ht0
    exact reSub_nil _ _
  | succ n ih =>
    intro t ht
    cases t with
    | nil => exact reSub_nil _ _
    | cons c rest =>
      rw [reSub_cons]
      cases hm : matchHere (attribute_start p) (c :: rest) with
      | none =>
        rw [ih rest (by simp at ht; omega)]
      | some pr =>
        cases pr with
        | mk v r =>
          obtain ⟨he, hq⟩ := matchHere_some _ _ _ _ hm
          have hlen : r.length ≤ n := by
            have hl := congrArg List.length he
            simp only [List.length_cons, List.length_append] at hl
            simp only [List.length_cons] at ht hl
            omega
          simp only [attribute_cleaner_id p v, ih r hlen]
          rw [he]
          simp

theorem process_source_ok (p : HtmlAttributeParser) (fp content : List Char) :
    process_source p fp content = Except.ok ⟨fp, content, content⟩ := by
  rw [process_source, reSub_cleaner_id p content.length content (le_refl _)]

theorem reSub_noMatch (f : List Char → Except ParserError (List Char)) (astart : List Char) :
    ∀ t, hasAttrMatch astart t = false → reSub f astart t = Except.ok t := by
  intro t
  induction t with
  | nil => intro _; exact reSub_nil _ _
  | cons c rest ih =>
    intro h
    rw [hasAttrMatch] at h
    have h1 : matchHere astart (c :: rest) = none := by
      cases hm : matchHere astart (c :: rest) with
      | none => rfl
      | some pr => rw [hm] at h; simp at h
    have h2 : hasAttrMatch astart rest = false := by
      rw [h1] at h
      simpa using h
    rw [reSub_cons, h1, ih h2]

theorem reSub_frame (f : List Char → Except ParserError (List Char)) (astart : List Char) :
    ∀ (n : Nat) (t out : List Char), t.length ≤ n →
    reSub f astart t = Except.ok out →
    ∃ segs tail, origOfSegs segs tail = t ∧ outOfSegs segs tail = out ∧
      ∀ s ∈ segs, attribute_regex_match astart s.2.1 ∧ f s.2.1 = Except.ok s.2.2 := by
  intro n
  induction n with
  | zero =>
    intro t out ht h
    have ht0 : t = [] := List.length_eq_zero.mp (Nat.le_zero.mp ht)
    subst ht0
    rw [reSub_nil] at h
    cases h
    exact ⟨[], [], rfl, rfl, by intro s hs; cases hs⟩
  | succ n ih =>
    intro t out ht h
    cases t with
    | nil =>
      rw [reSub_nil] at h
      cases h
      exact ⟨[], [], rfl, rfl, by intro s hs; cases hs⟩
    | cons c rest =>
      rw [reSub_cons] at h
      cases hm : matchHere astart (c :: rest) with
      | none =>
        rw [hm] at h
        cases hr : reSub f astart rest with
        | error e => rw [hr] at h; cases h
        | ok tail0 =>
          rw [hr] at h
          cases h
          obtain ⟨segs, tl, ho, hu, hp⟩ :=
            ih rest tail0 (by simp only [List.length_cons] at ht; omega) hr
          cases segs with
          | nil =>
            refine ⟨[], c :: tl, ?_, ?_, ?_⟩
            · rw [origOfSegs] at ho ⊢
              rw [ho]
            · rw [outOfSegs] at hu ⊢
              rw [hu]
            · intro s hs; cases hs
          | cons s ss =>
            refine ⟨(c :: s.1, s.2) :: ss, tl, ?_, ?_, ?_⟩
            · rw [origOfSegs] at ho ⊢
              simp only [List.cons_append]
              rw [ho]
            · rw [outOfSegs] at hu ⊢
              simp only [List.cons_append]
              rw [hu]
            · intro x hx
              cases hx with
              | head => exact hp s (List.mem_cons_self _ _)
              | tail _ hmem => exact hp x (List.mem_cons_of_mem _ hmem)
      | some pr =>
        cases pr with
        | mk v r =>
          rw [hm] at h
          obtain ⟨he, hq⟩ := matchHere_some _ _ _ _ hm
          cases hf : f (astart ++ v ++ [quoteChar]) with
          | error e =>
            simp only [hf] at h
            exact Except.noConfusion h
          | ok rep =>
            cases hr : reSub f astart r with
            | error e =>
              simp only [hf, hr] at h
              exact Except.noConfusion h
            | ok tail0 =>
              simp only [hf, hr] at h
              cases h
              have hlen : r.length ≤ n := by
                have hl := congrArg List.length he
                simp only [List.length_cons, List.length_append] at hl
                simp only [List.length_cons] at ht
                omega
              obtain ⟨segs, tl, ho, hu, hp⟩ := ih r tail0 hlen hr
              refine ⟨([], (astart ++ v ++ [quoteChar], rep)) :: segs, tl, ?_, ?_, ?_⟩
              · rw [origOfSegs]
                simp only [List.nil_append]
                rw [ho, he]
                simp
              · rw [outOfSegs]
                simp only [List.nil_append]
                rw [hu]
              · intro x hx
                cases hx with
                | head =>
                  exact ⟨(attrMatch_iff _ _).mpr ⟨v, hq, rfl⟩, hf⟩
                | tail _ hmem => exact hp x hmem

theorem batch_sources_ok (p : HtmlAttributeParser) :
    ∀ sources : List (List Char × List Char),
    batch_sources p sources =
      Except.ok (sources.map (fun kv => ⟨kv.1, kv.2, kv.2⟩)) := by
  intro sources
  induction sources with
  | nil => rfl
  | cons kv rest ih =>
    rw [batch_sources, process_source_ok, ih]
    rfl

theorem get_attribute_value_error_iff (p : HtmlAttributeParser) (m : List Char) :
    (∃ e, get_attribute_value p m = Except.error e) ↔
      ¬(startsWith (attribute_start p) m = true ∧ endsWith (attribute_end p) m = true) := by
  rw [get_attribute_value]
  by_cases hm0 : m = []
  · rw [if_pos hm0]
    subst hm0
    constructor
    · intro _ hcontra
      have h1 := of_decide_eq_true hcontra.1
      rw [List.take_nil] at h1
      have h2 : (attribute_start p).length = 0 := by
        rw [← h1]
        rfl
      rw [attribute_start] at h2
      simp at h2
    · intro _
      exact ⟨⟨emptyMatchMsg⟩, rfl⟩
  · rw [if_neg hm0]
    by_cases hcond :
        (!(startsWith (attribute_start p) m) || !(endsWith (attribute_end p) m)) = true
    · rw [if_pos hcond]
      constructor
      · intro _ hcontra
        rw [hcontra.1, hcontra.2] at hcond
        simp at hcond
      · intro _
        exact ⟨⟨malformedMsg m⟩, rfl⟩
    · rw [if_neg hcond]
      constructor
      · rintro ⟨e, he⟩
        exact Except.noConfusion he
      · intro hcontra
        exfalso
        apply hcontra
        constructor
        · cases hs : startsWith (attribute_start p) m with
          | true => rfl
          | false => exact absurd (by rw [hs]; rfl) hcond
        · cases hsuf : endsWith (attribute_end p) m with
          | true => rfl
          | false => exact absurd (by rw [hsuf]; simp) hcond

theorem attrMatch_envelope (p : HtmlAttributeParser) (t : List Char)
    (h : attribute_regex_match (attribute_start p) t) :
    startsWith (attribute_start p) t = true ∧ endsWith (attribute_end p) t = true := by
  obtain ⟨v, hv, he⟩ := (attrMatch_iff _ _).mp h
  subst he
  constructor
  · rw [startsWith]
    apply decide_eq_true
    rw [List.append_assoc]
    exact List.take_left _ _
  · rw [endsWith]
    apply decide_eq_true
    simp [attribute_end]

theorem splitOnSpaceChar_ne_nil : ∀ l, splitOnSpaceChar l ≠ [] := by
  intro l
  cases l with
  | nil => simp [splitOnSpaceChar]
  | cons c rest =>
    rw [splitOnSpaceChar]
    by_cases hc : c = ' '
    · rw [if_pos hc]
      simp
    · rw [if_neg hc]
      cases hs : splitOnSpaceChar rest <;> simp

theorem joinSpace_splitOnSpaceChar : ∀ v, joinSpace (splitOnSpaceChar v) = v := by
  intro v
  induction v with
  | nil => rfl
  | cons c rest ih =>
    rw [splitOnSpaceChar]
    by_cases hc : c = ' '
    · rw [if_pos hc]
      subst hc
      cases hs : splitOnSpaceChar rest with
      | nil => exact absurd hs (splitOnSpaceChar_ne_nil rest)
      | cons t ts =>
        rw [hs] at ih
        simp only [joinSpace, List.nil_append]
        rw [ih]
    · rw [if_neg hc]
      cases hs : splitOnSpaceChar rest with
      | nil => exact absurd hs (splitOnSpaceChar_ne_nil rest)
      | cons t ts =>
        rw [hs] at ih
        cases ts with
        | nil =>
          simp only [joinSpace] at ih ⊢
          rw [ih]
        | cons t2 ts2 =>
          simp only [joinSpace, List.cons_append] at ih ⊢
          rw [← ih]

theorem pySplitWs_tokens : ∀ (l : List Char) (tok : List Char), tok ∈ pySplitWs l →
    tok ≠ [] ∧ ∀ c ∈ tok, isPySpace c = false := by
  intro l
  induction l with
  | nil => intro tok h; simp [pySplitWs] at h
  | cons c rest ih =>
    intro tok h
    cases rest with
    | nil =>
      by_cases hc : isPySpace c = true
      · simp only [pySplitWs, if_pos hc] at h
        simp at h
      · simp only [pySplitWs, if_neg hc] at h
        simp at h
        subst h
        refine ⟨by simp, ?_⟩
        intro x hx
        simp at hx
        subst hx
        simpa using hc
    | cons d ds =>
      by_cases hc : isPySpace c = true
      · simp only [pySplitWs, if_pos hc] at h
        exact ih tok h
      · have hcf : isPySpace c = false := by simpa using hc
        simp only [pySplitWs, if_neg hc] at h
        by_cases hd : isPySpace d = true
        · rw [if_pos hd] at h
          rcases List.mem_cons.mp h with h1 | h2
          · subst h1
            refine ⟨by simp, ?_⟩
            intro x hx
            simp at hx
            subst hx
            exact hcf
          · exact ih tok h2
        · rw [if_neg hd] at h
          cases hs : pySplitWs (d :: ds) with
          | nil =>
            rw [hs] at h
            simp [consHead] at h
            subst h
            refine ⟨by simp, ?_⟩
            intro x hx
            simp at hx
            subst hx
            exact hcf
          | cons t ts =>
            rw [hs] at h
            simp only [consHead] at h
            rcases List.mem_cons.mp h with h1 | h2
            · subst h1
              have ht := ih t (by rw [hs]; exact List.mem_cons_self _ _)
              refine ⟨by simp, ?_⟩
              intro x hx
              rcases List.mem_cons.mp hx with hx1 | hx2
              · subst hx1; exact hcf
              · exact ht.2 x hx2
            · exact ih tok (by rw [hs]; exact List.mem_cons_of_mem _ h2)

theorem pySplitWs_space_head (d : Char) (l : List Char) (hd : isPySpace d = true) :
    pySplitWs (d :: l) = pySplitWs l := by
  cases l with
  | nil => simp [pySplitWs, hd]
  | cons e es => simp [pySplitWs, hd]

theorem pySplitWs_token_cons : ∀ (t rest : List Char), t ≠ [] →
    (∀ c ∈ t, isPySpace c = false) →
    (rest = [] ∨ ∃ d ds, rest = d :: ds ∧ isPySpace d = true) →
    pySplitWs (t ++ rest) = t :: pySplitWs rest := by
  intro t
  induction t with
  | nil => intro rest h; exact absurd rfl h
  | cons a al ih =>
    intro rest _ hgood hrest
    have ha : isPySpace a = false := hgood a (List.mem_cons_self _ _)
    cases al with
    | nil =>
      rcases hrest with h0 | ⟨d, ds, hds, hd⟩
      · subst h0
        simp [pySplitWs, ha]
      · subst hds
        simp [pySplitWs, ha, hd]
    | cons b bl =>
      have hb : isPySpace b = false := hgood b (by simp)
      have ihr := ih rest (by simp) (fun c hc => hgood c (List.mem_cons_of_mem _ hc)) hrest
      rw [List.cons_append] at ihr
      simp only [List.cons_append, pySplitWs, ha, hb, Bool.false_eq_true, if_false,
        List.append_eq]
      rw [ihr, consHead]

theorem pySplitWs_joinSpace : ∀ ts : List (List Char),
    (∀ tok ∈ ts, tok ≠ [] ∧ ∀ c ∈ tok, isPySpace c = false) →
    pySplitWs (joinSpace ts) = ts := by
  intro ts
  induction ts with
  | nil => intro _; rfl
  | cons t ts2 ih =>
    intro hgood
    have ht := hgood t (List.mem_cons_self _ _)
    cases ts2 with
    | nil =>
      have step := pySplitWs_token_cons t [] ht.1 ht.2 (Or.inl rfl)
      rw [List.append_nil] at step
      simp only [joinSpace]
      rw [step]
      rfl
    | cons t2 ts3 =>
      simp only [joinSpace]
      have step := pySplitWs_token_cons t (' ' :: joinSpace (t2 :: ts3)) ht.1 ht.2
        (Or.inr ⟨' ', joinSpace (t2 :: ts3), rfl, by decide⟩)
      rw [step, pySplitWs_space_head ' ' _ (by decide)]
      rw [ih (fun tok htok => hgood tok (List.mem_cons_of_mem _ htok))]

theorem countTok_eq_zero_of_not_mem : ∀ (l : List (List Char)) (x : List Char),
    x ∉ l → countTok x l = 0 := by
  intro l
  induction l with
  | nil => intro x _; rfl
  | cons y rest ih =>
    intro x hx
    rw [countTok]
    have hyx : y ≠ x := by
      intro he
      exact hx (by rw [he]; exact List.mem_cons_self _ _)
    rw [if_neg hyx, ih x (fun hmem => hx (List.mem_cons_of_mem _ hmem))]

theorem countTok_pos_of_mem : ∀ (l : List (List Char)) (x : List Char),
    x ∈ l → 1 ≤ countTok x l := by
  intro l
  induction l with
  | nil => intro x hx; cases hx
  | cons y rest ih =>
    intro x hx
    rw [countTok]
    rcases List.mem_cons.mp hx with h1 | h2
    · rw [if_pos h1.symm]
      omega
    · have := ih x h2
      omega

theorem memIffExtend (value earlier : List (List Char)) (item : List Char)
    (hinv : ∀ x, ¬(x = [] ∨ isSpaceOnlyTok x = true) → (x ∈ value ↔ x ∈ earlier)) :
    ∀ x, ¬(x = [] ∨ isSpaceOnlyTok x = true) →
      (x ∈ value ++ [item] ↔ x ∈ earlier ++ [item]) := by
  intro x hx
  simp only [List.mem_append, List.mem_singleton]
  rw [hinv x hx]

theorem h051Aux_dedupeSpecFrom : ∀ (items value earlier : List (List Char)),
    (∀ x, ¬(x = [] ∨ isSpaceOnlyTok x = true) → (x ∈ value ↔ x ∈ earlier)) →
    h051Aux value items = value ++ dedupeSpecFrom earlier items := by
  intro items
  induction items with
  | nil =>
    intro value earlier _
    rw [h051Aux, dedupeSpecFrom, List.append_nil]
  | cons item rest ih =>
    intro value earlier hinv
    rw [h051Aux, dedupeSpecFrom]
    by_cases hsem : item = [] ∨ isSpaceOnlyTok item = true
    · have hc1 : item = [] ∨ isSpaceOnlyTok item = true ∨ item ∉ value := by
        rcases hsem with h | h
        · exact Or.inl h
        · exact Or.inr (Or.inl h)
      have hc2 : item = [] ∨ isSpaceOnlyTok item = true ∨ item ∉ earlier := by
        rcases hsem with h | h
        · exact Or.inl h
        · exact Or.inr (Or.inl h)
      rw [if_pos hc1, if_pos hc2,
        ih (value ++ [item]) (earlier ++ [item]) (memIffExtend value earlier item hinv)]
      simp
    · have hiff := hinv item hsem
      by_cases hin : item ∈ value
      · have hc1 : ¬(item = [] ∨ isSpaceOnlyTok item = true ∨ item ∉ value) := by
          intro hcontra
          rcases hcontra with h | h | h
          · exact hsem (Or.inl h)
          · exact hsem (Or.inr h)
          · exact h hin
        have hc2 : ¬(item = [] ∨ isSpaceOnlyTok item = true ∨ item ∉ earlier) := by
          intro hcontra
          rcases hcontra with h | h | h
          · exact hsem (Or.inl h)
          · exact hsem (Or.inr h)
          · exact h (hiff.mp hin)
        rw [if_neg hc1, if_neg hc2]
        apply ih value (earlier ++ [item])
        intro x hx
        simp only [List.mem_append, List.mem_singleton]
        constructor
        · intro h
          exact Or.inl ((hinv x hx).mp h)
        · rintro (h | h)
          · exact (hinv x hx).mpr h
          · rw [h]
            exact hin
      · have hc1 : item = [] ∨ isSpaceOnlyTok item = true ∨ item ∉ value :=
          Or.inr (Or.inr hin)
        have hc2 : item = [] ∨ isSpaceOnlyTok item = true ∨ item ∉ earlier :=
          Or.inr (Or.inr (fun hcontra => hin (hiff.mpr hcontra)))
        rw [if_pos hc1, if_pos hc2,
          ih (value ++ [item]) (earlier ++ [item]) (memIffExtend value earlier item hinv)]
        simp

theorem h051_eq_dedupeSpec (items : List (List Char)) :
    apply_rule_H051 items = dedupeSpec items := by
  rw [apply_rule_H051, dedupeSpec,
    h051Aux_dedupeSpecFrom items [] [] (fun x _ => Iff.rfl), List.nil_append]

theorem dedupeSpecFrom_notMem : ∀ (l earlier : List (List Char)) (x : List Char),
    ¬(x = [] ∨ isSpaceOnlyTok x = true) → x ∈ earlier →
    x ∉ dedupeSpecFrom earlier l := by
  intro l
  induction l with
  | nil => intro earlier x _ _; simp [dedupeSpecFrom]
  | cons item rest ih =>
    intro earlier x hx hxe
    rw [dedupeSpecFrom]
    by_cases hcond : item = [] ∨ isSpaceOnlyTok item = true ∨ item ∉ earlier
    · rw [if_pos hcond]
      intro hmem
      rcases List.mem_cons.mp hmem with h1 | h2
      · subst h1
        rcases hcond with h | h | h
        · exact hx (Or.inl h)
        · exact hx (Or.inr h)
        · exact h hxe
      · exact ih (earlier ++ [item]) x hx (List.mem_append.mpr (Or.inl hxe)) h2
    · rw [if_neg hcond]
      exact ih (earlier ++ [item]) x hx (List.mem_append.mpr (Or.inl hxe))

theorem countTok_dedupeSpecFrom_le_one : ∀ (l earlier : List (List Char)) (x : List Char),
    ¬(x = [] ∨ isSpaceOnlyTok x = true) →
    countTok x (dedupeSpecFrom earlier l) ≤ 1 := by
  intro l
  induction l with
  | nil => intro earlier x _; simp [dedupeSpecFrom, countTok]
  | cons item rest ih =>
    intro earlier x hx
    rw [dedupeSpecFrom]
    by_cases hcond : item = [] ∨ isSpaceOnlyTok item = true ∨ item ∉ earlier
    · rw [if_pos hcond, countTok]
      by_cases hxi : item = x
      · subst hxi
        have h0 : item ∉ dedupeSpecFrom (earlier ++ [item]) rest :=
          dedupeSpecFrom_notMem rest (earlier ++ [item]) item hx
            (List.mem_append.mpr (Or.inr (List.mem_singleton.mpr rfl)))
        rw [if_pos rfl, countTok_eq_zero_of_not_mem _ _ h0]
      · rw [if_neg hxi]
        have := ih (earlier ++ [item]) x hx
        omega
    · rw [if_neg hcond]
      exact ih (earlier ++ [item]) x hx

theorem dedupeSpecFrom_id : ∀ (l earlier : List (List Char)),
    (∀ x ∈ l, ¬(x = [] ∨ isSpaceOnlyTok x = true) → countTok x l ≤ 1 ∧ x ∉ earlier) →
    dedupeSpecFrom earlier l = l := by
  intro l
  induction l with
  | nil => intro earlier _; rfl
  | cons item rest ih =>
    intro earlier hinv
    rw [dedupeSpecFrom]
    have hkeep : item = [] ∨ isSpaceOnlyTok item = true ∨ item ∉ earlier := by
      by_cases hsem : item = [] ∨ isSpaceOnlyTok item = true
      · rcases hsem with h | h
        · exact Or.inl h
        · exact Or.inr (Or.inl h)
      · exact Or.inr (Or.inr ((hinv item (List.mem_cons_self _ _) hsem).2))
    rw [if_pos hkeep]
    congr 1
    apply ih
    intro x hx hxsem
    have hfull := hinv x (List.mem_cons_of_mem _ hx) hxsem
    constructor
    · have hle := hfull.1
      rw [countTok] at hle
      by_cases hix : item = x
      · rw [if_pos hix] at hle
        omega
      · rw [if_neg hix] at hle
        omega
    · intro hmem
      rcases List.mem_append.mp hmem with h | h
      · exact hfull.2 h
      · have hxi : x = item := List.mem_singleton.mp h
        subst hxi
        have hle := hfull.1
        rw [countTok, if_pos rfl] at hle
        have hpos := countTok_pos_of_mem rest x hx
        omega

theorem countTok_dedupeSpecFrom_nonsem : ∀ (l earlier : List (List Char)) (x : List Char),
    (x = [] ∨ isSpaceOnlyTok x = true) →
    countTok x (dedupeSpecFrom earlier l) = countTok x l := by
  intro l
  induction l with
  | nil => intro earlier x _; rfl
  | cons item rest ih =>
    intro earlier x hx
    rw [dedupeSpecFrom]
    by_cases hcond : item = [] ∨ isSpaceOnlyTok item = true ∨ item ∉ earlier
    · rw [if_pos hcond]
      simp only [countTok]
      rw [ih (earlier ++ [item]) x hx]
    · rw [if_neg hcond]
      have hitem : ¬(item = [] ∨ isSpaceOnlyTok item = true) := by
        intro hcontra
        apply hcond
        rcases hcontra with h | h
        · exact Or.inl h
        · exact Or.inr (Or.inl h)
      have hne : item ≠ x := by
        intro he
        rw [he] at hitem
        exact hitem hx
      simp only [countTok]
      rw [ih (earlier ++ [item]) x hx, if_neg hne]
      omega

/-- Claim C1: for every source text and engine configuration, the transformed
content returned by `process_source` differs from the original only inside
the spans matched by the attribute pattern — the text decomposes into
untouched gaps plus matched spans, with everything outside the spans (the
gaps and the final tail) preserved byte for byte — and with zero matches the
transformed content equals the original. -/
theorem claim_C1 (p : HtmlAttributeParser) (fp content : List Char) (res : SourceResult)
    (h : process_source p fp content = Except.ok res) :
    res.original = content ∧
    (∃ segs tail, origOfSegs segs tail = content ∧ outOfSegs segs tail = res.transformed ∧
      ∀ s ∈ segs, attribute_regex_match (attribute_start p) s.2.1) ∧
    (hasAttrMatch (attribute_start p) content = false → res.transformed = content) := by
  rw [process_source] at h
  cases hr : reSub (attribute_cleaner p) (attribute_start p) content with
  | error e =>
    rw [hr] at h
    exact Except.noConfusion h
  | ok t =>
    rw [hr] at h
    have h' : Except.ok (SourceResult.mk fp content t) = Except.ok res := h
    cases h'
    refine ⟨rfl, ?_, ?_⟩
    · obtain ⟨segs, tl, ho, hu, hp⟩ := reSub_frame (attribute_cleaner p)
        (attribute_start p) content.length content t (le_refl _) hr
      exact ⟨segs, tl, ho, hu, fun s hs => (hp s hs).1⟩
    · intro hnm
      have hid := reSub_noMatch (attribute_cleaner p) (attribute_start p) content hnm
      injection hid.symm.trans hr with hh
      exact hh.symm

theorem claim_C1_witness :
    (SourceResult.mk ([] : List Char) ['x'] ['x']).original = ['x'] ∧
    (∃ segs tail, origOfSegs segs tail = ['x'] ∧
      outOfSegs segs tail = (SourceResult.mk ([] : List Char) ['x'] ['x']).transformed ∧
      ∀ s ∈ segs, attribute_regex_match (attribute_start (mkParser none none)) s.2.1) ∧
    (hasAttrMatch (attribute_start (mkParser none none)) ['x'] = false →
      (SourceResult.mk ([] : List Char) ['x'] ['x']).transformed = ['x']) :=
  claim_C1 (mkParser none none) [] ['x'] ⟨[], ['x'], ['x']⟩ (process_source_ok _ _ _)

/-- Claim C2: a span matched by the attribute pattern has exactly the form
`attribute_start ++ value ++ closing quote` with the value free of double
quotes (first conjunct, both directions), and the extent of such a span at a
given position is unique — the value is the maximal quote-free run, so a
match never runs past a quote boundary into another attribute (second
conjunct). -/
theorem claim_C2 (p : HtmlAttributeParser) (t : List Char) :
    (attribute_regex_match (attribute_start p) t ↔
      ∃ v, noQuote v ∧ t = attribute_start p ++ v ++ [quoteChar]) ∧
    (∀ v r w s, noQuote v → noQuote w →
      attribute_start p ++ v ++ quoteChar :: r = attribute_start p ++ w ++ quoteChar :: s →
      v = w ∧ r = s) := by
  refine ⟨attrMatch_iff _ _, ?_⟩
  intro v r w s hv hw he
  apply quote_split_unique v r w s hv hw
  rw [List.append_assoc, List.append_assoc] at he
  exact List.append_cancel_left he

theorem claim_C2_witness :
    attribute_regex_match (attribute_start (mkParser none none))
      (attribute_start (mkParser none none) ++ ['a'] ++ [quoteChar]) :=
  (claim_C2 (mkParser none none)
    (attribute_start (mkParser none none) ++ ['a'] ++ [quoteChar])).1.mpr
    ⟨['a'], by decide, rfl⟩

/-- Claim C3: the wrap/extract round trip — `attribute_cleaner` applied to a
matched text of the form `attribute_start ++ v ++ attribute_end` (with `v`
quote-free) reproduces that text exactly. -/
theorem claim_C3 (p : HtmlAttributeParser) (v : List Char) (h : noQuote v) :
    attribute_cleaner p (attribute_start p ++ v ++ attribute_end p) =
      Except.ok (attribute_start p ++ v ++ attribute_end p) :=
  attribute_cleaner_id p v

theorem claim_C3_witness :
    noQuote ['a'] ∧
    attribute_cleaner (mkParser none none)
        (attribute_start (mkParser none none) ++ ['a'] ++ attribute_end (mkParser none none)) =
      Except.ok
        (attribute_start (mkParser none none) ++ ['a'] ++ attribute_end (mkParser none none)) :=
  ⟨by decide, claim_C3 (mkParser none none) ['a'] (by decide)⟩

/-- Claim C4: `get_attribute_value` returns the ParserError exactly when the
matched text does not both start with `attribute_start` and end with
`attribute_end` (the empty text falls under this case, since
`attribute_start` is never empty); every text matched by the attribute
pattern satisfies that envelope; hence under the pattern the error branch is
unreachable and `process_source` never fails. -/
theorem claim_C4 (p : HtmlAttributeParser) :
    (∀ m, (∃ e, get_attribute_value p m = Except.error e) ↔
      ¬(startsWith (attribute_start p) m = true ∧ endsWith (attribute_end p) m = true)) ∧
    (∀ t, attribute_regex_match (attribute_start p) t →
      startsWith (attribute_start p) t = true ∧ endsWith (attribute_end p) t = true) ∧
    (∀ fp content, process_source p fp content = Except.ok ⟨fp, content, content⟩) :=
  ⟨fun m => get_attribute_value_error_iff p m,
   fun t h => attrMatch_envelope p t h,
   fun fp content => process_source_ok p fp content⟩

theorem claim_C4_witness :
    ∃ e, get_attribute_value (mkParser none none) [] = Except.error e :=
  ((claim_C4 (mkParser none none)).1 []).mpr (by decide)

/-- Claim C5: rule H050 splits on any whitespace run discarding empty tokens,
so every output token is non-empty and whitespace-free; re-joining with a
single space is stable (splitting the re-joined value recovers exactly the
same tokens, so separators are single spaces with no leading or trailing
whitespace); and the value `" a   b\tc "` transforms to `"a b c"`. -/
theorem claim_C5 :
    (∀ v tok, tok ∈ apply_rule_H050 v → tok ≠ [] ∧ ∀ c ∈ tok, isPySpace c = false) ∧
    (∀ v, apply_rule_H050 (joinSpace (apply_rule_H050 v)) = apply_rule_H050 v) ∧
    joinSpace (apply_rule_H050 [' ', 'a', ' ', ' ', ' ', 'b', '\t', 'c', ' ']) =
      ['a', ' ', 'b', ' ', 'c'] := by
  refine ⟨?_, ?_, by decide⟩
  · intro v tok h
    exact pySplitWs_tokens v tok h
  · intro v
    exact pySplitWs_joinSpace (pySplitWs v) (fun tok htok => pySplitWs_tokens v tok htok)

theorem claim_C5_witness :
    (['a'] : List Char) ≠ [] ∧ ∀ c ∈ (['a'] : List Char), isPySpace c = false :=
  claim_C5.1 ['a', ' ', 'b'] ['a'] (by decide)

/-- Claim C6: rule H051 equals the spec's dedupe — keep the first occurrence
of each distinct non-empty, non-whitespace-only token, let every empty or
whitespace-only token pass through unconditionally, preserve order (first
conjunct, equality with the spec-worded `dedupeSpec`); occurrence counts of
empty and whitespace-only tokens are fully preserved (second conjunct); and
the value `"a a b a"` with dedupe enabled and no collapse transforms to
`"a b"` (third conjunct). -/
theorem claim_C6 :
    (∀ items, apply_rule_H051 items = dedupeSpec items) ∧
    (∀ items x, (x = [] ∨ isSpaceOnlyTok x = true) →
      countTok x (apply_rule_H051 items) = countTok x items) ∧
    joinSpace (apply_rule_H051 (apply_default_split ['a', ' ', 'a', ' ', 'b', ' ', 'a'])) =
      ['a', ' ', 'b'] := by
  refine ⟨h051_eq_dedupeSpec, ?_, by decide⟩
  intro items x hx
  rw [h051_eq_dedupeSpec, dedupeSpec]
  exact countTok_dedupeSpecFrom_nonsem items [] x hx

theorem claim_C6_witness :
    countTok ([] : List Char) (apply_rule_H051 [[]]) = countTok ([] : List Char) [[]] :=
  claim_C6.2.1 [[]] [] (Or.inl rfl)

/-- Claim C7: rule H051 is idempotent — applying it twice yields the same
token sequence as applying it once, for every input token sequence. -/
theorem claim_C7 (items : List (List Char)) :
    apply_rule_H051 (apply_rule_H051 items) = apply_rule_H051 items := by
  rw [h051_eq_dedupeSpec items, h051_eq_dedupeSpec (dedupeSpec items)]
  show dedupeSpecFrom [] (dedupeSpec items) = dedupeSpec items
  apply dedupeSpecFrom_id
  intro x hx hxsem
  refine ⟨?_, by simp⟩
  exact countTok_dedupeSpecFrom_le_one items [] x hxsem

/-- Claim C8: the baseline split/join is a lossless round trip — splitting on
the literal space character keeping all tokens and re-joining with a single
space restores any value exactly, in particular `"a  b"` with two spaces —
and with no rules applied `process_source` returns the attribute value (and
the whole content) textually unchanged. -/
theorem claim_C8 :
    (∀ v, joinSpace (apply_default_split v) = v) ∧
    joinSpace (apply_default_split ['a', ' ', ' ', 'b']) = ['a', ' ', ' ', 'b'] ∧
    (∀ (p : HtmlAttributeParser) (fp v : List Char),
      process_source p fp (attribute_start p ++ v ++ [quoteChar]) =
        Except.ok ⟨fp, attribute_start p ++ v ++ [quoteChar],
          attribute_start p ++ v ++ [quoteChar]⟩) :=
  ⟨fun v => joinSpace_splitOnSpaceChar v, joinSpace_splitOnSpaceChar _,
   fun p fp v => process_source_ok p fp _⟩

/-- Claim C9: `batch_sources` returns exactly one result per input entry, in
the input's insertion order, each result being `process_source` of that
entry — nothing dropped, duplicated, or reordered. -/
theorem claim_C9 (p : HtmlAttributeParser) (sources : List (List Char × List Char)) :
    ∃ res, batch_sources p sources = Except.ok res ∧
      res.length = sources.length ∧
      ∀ i (h1 : i < sources.length) (h2 : i < res.length),
        process_source p (sources.get ⟨i, h1⟩).1 (sources.get ⟨i, h1⟩).2 =
          Except.ok (res.get ⟨i, h2⟩) := by
  refine ⟨sources.map (fun kv => ⟨kv.1, kv.2, kv.2⟩), batch_sources_ok p sources,
    by simp, ?_⟩
  intro i h1 h2
  rw [process_source_ok, List.get_eq_getElem, List.get_eq_getElem, List.getElem_map]

theorem claim_C9_witness :
    ∃ res, batch_sources (mkParser none none) [(['k'], ['x'])] = Except.ok res ∧
      res.length = [((['k'] : List Char), (['x'] : List Char))].length ∧
      ∀ i (h1 : i < [((['k'] : List Char), (['x'] : List Char))].length)
        (h2 : i < res.length),
        process_source (mkParser none none)
            ([((['k'] : List Char), (['x'] : List Char))].get ⟨i, h1⟩).1
            ([((['k'] : List Char), (['x'] : List Char))].get ⟨i, h1⟩).2 =
          Except.ok (res.get ⟨i, h2⟩) :=
  claim_C9 (mkParser none none) [(['k'], ['x'])]

/-- Claim C10: constructing the engine with a falsy attribute name (absent or
the empty string) substitutes the default `class`, and the resulting engine
behaves on every source exactly like one constructed without the keyword. -/
theorem claim_C10 (dc : Option Bool) (kw : Option (List Char))
    (h : kw = none ∨ kw = some []) :
    (mkParser dc kw).attribute_name = defaultAttributeName ∧
    ∀ fp content, process_source (mkParser dc kw) fp content =
      process_source (mkParser dc none) fp content := by
  have heq : mkParser dc kw = mkParser dc none := by
    rcases h with h | h
    · rw [h]
    · rw [h]
      simp [mkParser]
  rw [heq]
  exact ⟨rfl, fun fp content => rfl⟩

theorem claim_C10_witness :
    (mkParser none (some [])).attribute_name = defaultAttributeName ∧
    ∀ fp content, process_source (mkParser none (some [])) fp content =
      process_source (mkParser none none) fp content :=
  claim_C10 none (some []) (Or.inr rfl)
